import Mathlib

/-!
Verification development for `imessages_to_csv.py`: a pipeline that
extracts human-readable message text from a message-store database.
Strings are modelled as `List Char`; Python's Unicode character classes
are modelled by `Char.isAlpha` / `Char.isDigit` / `Char.isWhitespace`
(the scripts exercised by the pipeline's decision logic), and line
boundaries by `'\n'` (carriage returns are rewritten to `'\n'` before
any line splitting, mirroring the source).
-/

namespace IMsg

/-- Python `str.strip()`: drop leading and trailing whitespace. -/
def strip (s : List Char) : List Char :=
  List.rdropWhile Char.isWhitespace (List.dropWhile Char.isWhitespace s)

/-- Python `str.splitlines()` restricted to `'\n'` boundaries: splits at
every newline, with no empty trailing piece for a string that ends in a
newline. -/
def splitlines : List Char → List (List Char)
  | [] => []
  | c :: rest =>
    if c = '\n' then [] :: splitlines rest
    else
      match splitlines rest with
      | [] => [[c]]
      | l :: ls => (c :: l) :: ls

/-- Python `"\n".join(...)`. -/
def joinLines : List (List Char) → List Char
  | [] => []
  | [l] => l
  | l :: ls => l ++ '\n' :: joinLines ls

/-- Membership of the emoji/symbol ranges of `EMOJI_RE`:
U+1F300–U+1FAFF and U+2600–U+27BF. -/
def isEmojiChar (c : Char) : Bool :=
  (0x1F300 ≤ c.toNat && c.toNat ≤ 0x1FAFF) ||
  (0x2600 ≤ c.toNat && c.toNat ≤ 0x27BF)

/-- The classifier `is_humanish` from the source: empty or all-whitespace is rejected,
a pure digit string (after stripping) is rejected, any alphabetic
character accepts, otherwise any emoji-range character accepts. -/
def is_humanish (s : List Char) : Bool :=
  if s.isEmpty then false
  else if (strip s).isEmpty then false
  else if (strip s).all Char.isDigit then false
  else if (strip s).any Char.isAlpha then true
  else (strip s).any isEmojiChar

/-- The object-dump marker checked by `clean_text`. -/
def marker : List Char := "@NSAttributedString".toList

/-- The class-name substring checked by `clean_text`. -/
def nsAttrName : List Char := "NSAttributedString".toList

/-- Boolean substring containment (Python `in` on strings). -/
def containsSeq (pat : List Char) : List Char → Bool
  | [] => pat.isEmpty
  | c :: rest => pat.isPrefixOf (c :: rest) || containsSeq pat rest

/-- The line-normalization pass of `clean_text`: replace every `'\r'`
with `'\n'`, strip each line, and rejoin with `'\n'`. -/
def lineNormalize (s : List Char) : List Char :=
  joinLines ((splitlines (s.map fun c => if c = '\r' then '\n' else c)).map strip)

/-- The normalizer `clean_text` from the source: empty gives empty; otherwise
line-normalize, drop object-dump artifacts (a result starting with
`@NSAttributedString`, or wrapped in angle brackets and containing
`NSAttributedString`), and strip the surviving result. -/
def clean_text (s : List Char) : List Char :=
  if s.isEmpty then []
  else if marker <+: lineNormalize s then []
  else if containsSeq nsAttrName (lineNormalize s) = true ∧
      (lineNormalize s).head? = some '<' ∧ (lineNormalize s).getLast? = some '>' then []
  else strip (lineNormalize s)

/-- A decoded keyed-archive object graph, as traversed by the source:
rich-text nodes and plain strings are the string leaves (both carry the
plain string form), dictionaries are traversed over their values in key
order, arrays over their elements, and every other allowed node kind
(data, number, url, date, uuid) yields no string. -/
inductive NSObj where
  | str (s : List Char)
  | attr (s : List Char)
  | other
  | dict (vs : List NSObj)
  | arr (vs : List NSObj)


mutual
/-- The extractor `first_string_from` from the source: prefer the rich-text string or
the plain string at the node; for a container, the first recursive
result that passes `is_humanish`; otherwise empty. -/
def first_string_from : NSObj → List Char
  | .attr s => s
  | .str s => s
  | .other => []
  | .dict vs => fsfList vs
  | .arr vs => fsfList vs

/-- The container scan inside `first_string_from`: first recursive
result passing the classifier, else empty. -/
def fsfList : List NSObj → List Char
  | [] => []
  | v :: rest =>
    if is_humanish (first_string_from v) then first_string_from v
    else fsfList rest
end

mutual
/-- The `walk` closure inside `best_string_from`: visit a node, replace
the running best candidate whenever this node's `first_string_from` is
human-ish and strictly longer, then recurse into container children. -/
def walk (o : NSObj) (best : List Char) : List Char :=
  let s := first_string_from o
  let best' := if is_humanish s && decide (best.length < s.length) then s else best
  match o with
  | .dict vs => walkList vs best'
  | .arr vs => walkList vs best'
  | _ => best'

/-- The walker threaded left to right over a container's children. -/
def walkList : List NSObj → List Char → List Char
  | [], best => best
  | v :: rest, best => walkList rest (walk v best)
end

/-- The extractor `best_string_from` from the source: run `walk` from the empty
candidate and pass the winner through `clean_text`. -/
def best_string_from (o : NSObj) : List Char :=
  clean_text (walk o [])

mutual
/-- The depth-first preorder node list of a graph (the visit order of
`walk`). -/
def dfsNodes : NSObj → List NSObj
  | .dict vs => .dict vs :: dfsNodesList vs
  | .arr vs => .arr vs :: dfsNodesList vs
  | o => [o]

/-- The node lists of `dfsNodes` concatenated over a container's children. -/
def dfsNodesList : List NSObj → List NSObj
  | [] => []
  | v :: rest => dfsNodes v ++ dfsNodesList rest
end

/-- The candidate update of `walk` (and of the spec's longest-wins
rule): replace the running best by `s` iff `s` passes the classifier and
is strictly longer. -/
def keepLonger (best s : List Char) : List Char :=
  if is_humanish s && decide (best.length < s.length) then s else best

/-- Modelled from the spec: "keep the longest candidate that passes the
Classifier. Ties keep the first found." — the fold that keeps the first
strictly-longest classifier-passing candidate of a list. -/
def pickBest (cands : List (List Char)) : List Char :=
  cands.foldl keepLonger []

/-- A rich-text blob (`attributedBody`), modelled by its emptiness and
by the outcome of each unarchive attempt on it: `none` models a raised
error, a non-nil `err`, or a nil object; `some o` models a successful
decode to the graph `o`. -/
structure AttrBlob where
  isEmpty : Bool
  secureObj : Option NSObj
  legacyObj : Option NSObj


/-- The decoder `decode_attr` from the source: empty blob gives empty; otherwise the
secure (allow-listed) unarchive attempt, whose successful decode returns
the classified extraction result directly; only a failed secure decode
falls through to the permissive legacy attempt. -/
def decode_attr (b : AttrBlob) : List Char :=
  if b.isEmpty then []
  else
    match b.secureObj with
    | some o =>
      let s := best_string_from o
      if is_humanish s then s else []
    | none =>
      match b.legacyObj with
      | some o =>
        let s := best_string_from o
        if is_humanish s then s else []
      | none => []

/-- A decoded property-list value: strings, binary leaves (modelled by
their lossy UTF-8 decoding, which never raises), dictionaries traversed
over their values in order, sequences, and anything else. -/
inductive PL where
  | str (s : List Char)
  | bin (decoded : List Char)
  | dict (vs : List PL)
  | seq (vs : List PL)
  | other


mutual
/-- The search `pull` from the source's `decode_summary`: a string or binary leaf
is cleaned and returned iff human-ish, containers return the first
non-empty recursive result, anything else is empty. -/
def pull : PL → List Char
  | .str x => if is_humanish (clean_text x) then clean_text x else []
  | .bin d => if is_humanish (clean_text d) then clean_text d else []
  | .dict vs => pullList vs
  | .seq vs => pullList vs
  | .other => []

/-- The container scan inside `pull`: first non-empty recursive result. -/
def pullList : List PL → List Char
  | [] => []
  | v :: rest => if pull v = [] then pullList rest else pull v
end

/-- A summary blob (`message_summary_info`), modelled by its emptiness
and by the outcome of `plistlib.loads` on it (`none` models a parse
error). -/
structure SummaryBlob where
  isEmpty : Bool
  parsed : Option PL


/-- The decoder `decode_summary` from the source: empty blob or parse failure gives
empty; otherwise `pull` the parsed value and return it iff human-ish. -/
def decode_summary (b : SummaryBlob) : List Char :=
  if b.isEmpty then []
  else
    match b.parsed with
    | none => []
    | some x =>
      let s := pull x
      if is_humanish s then s else []

/-- The SQL `CASE` computing `ts_unix` from `m.date` (NULL-aware: a
NULL date satisfies neither comparison, giving NULL): a value above
10^12 is nanoseconds since the store epoch, a positive value is seconds
since the store epoch, anything else gives no timestamp. Both live
branches have positive operands, so integer division conventions
agree. -/
def ts_unix : Option Int → Option Int
  | none => none
  | some d =>
    if d > 1000000000000 then some (d / 1000000000 + 978307200)
    else if d > 0 then some (d + 978307200)
    else none

/-- Modelled from the spec: the external timestamp converter's
formatting of a Unix-seconds value to a UTC string (`time.strftime` on
`time.gmtime`, out of scope per the spec's external-interface section);
modelled as an uninterpreted injective rendering of the seconds value. -/
def formatTS (v : Int) : List Char := 't' :: (toString v).toList

/-- One row of the message query, with each blob modelled by its decode
outcomes (see `AttrBlob`, `SummaryBlob`); `date` is the raw store
timestamp feeding the SQL `CASE`. -/
structure Row where
  chat_guid : Option (List Char)
  chat_name : Option (List Char)
  sender_or_chat_id : Option (List Char)
  from_me : Option Int
  date : Option Int
  text_plain : Option (List Char)
  attr_blob : AttrBlob
  summary_blob : SummaryBlob
  assoc_guid : Option (List Char)
  assoc_type : Option Int
  has_attach : Option Int

/-- A Resolved Text Record: the fields of one emitted CSV row. -/
structure Record where
  chat_guid : List Char
  chat_name : List Char
  sender_or_chat_id : List Char
  role : List Char
  from_me : Option Int
  ts : List Char
  text : List Char
  source : List Char
deriving DecidableEq

/-- Python truthiness of a nullable string (`if r["assoc_guid"]:`):
true iff present and non-empty. -/
def truthyStr : Option (List Char) → Bool
  | none => false
  | some s => !s.isEmpty

/-- Python `x or ""` on a nullable string. -/
def orEmpty (o : Option (List Char)) : List Char := o.getD []

/-- The per-row body of the source's `main` loop: drop rows with a
truthy association guid, try the three text sources in priority order
(plain text, rich-text blob, summary blob), drop the row unless the
final text is human-ish, and otherwise build the output record. -/
def resolve (r : Row) : Option Record :=
  if truthyStr r.assoc_guid then none
  else
    let txt0 := clean_text (orEmpty r.text_plain)
    let src0 : List Char := if is_humanish txt0 then "text".toList else []
    let p1 : List Char × List Char :=
      if src0.isEmpty then
        let t2 := decode_attr r.attr_blob
        if !t2.isEmpty then (t2, "attributedBody".toList) else (txt0, src0)
      else (txt0, src0)
    let p2 : List Char × List Char :=
      if p1.2.isEmpty then
        let t3 := decode_summary r.summary_blob
        if !t3.isEmpty then (t3, "message_summary_info".toList) else p1
      else p1
    if !is_humanish p2.1 then none
    else some {
      chat_guid := orEmpty r.chat_guid
      chat_name := orEmpty r.chat_name
      sender_or_chat_id := orEmpty r.sender_or_chat_id
      role := if r.from_me = some 1 then "me".toList else "other".toList
      from_me := r.from_me
      ts := match ts_unix r.date with
        | some v => formatTS v
        | none => []
      text := p2.1
      source := p2.2 }

/-- Modelled from the spec's classifier contract, clause by clause:
empty or all-whitespace is false; solely decimal digits after trimming
is false; at least one alphabetic character is true; otherwise true
exactly when some character lies in the emoji/symbol ranges; false for
all other inputs. Compared against `is_humanish` for the refinement
claim. -/
def is_humanish_spec (s : List Char) : Bool :=
  if s.all Char.isWhitespace then false
  else if (strip s).all Char.isDigit then false
  else if s.any Char.isAlpha then true
  else s.any isEmojiChar

/-- A blob that is `None` or empty bytes. -/
def emptyAttr : AttrBlob := ⟨true, none, none⟩

/-- A summary blob that is `None` or empty bytes. -/
def emptySummary : SummaryBlob := ⟨true, none⟩

/-- A sample row carrying plain text only. -/
def rowPlain : Row :=
  { chat_guid := none, chat_name := none, sender_or_chat_id := none
    from_me := some 1, date := none
    text_plain := some "  Hi!\n ".toList
    attr_blob := emptyAttr, summary_blob := emptySummary
    assoc_guid := none, assoc_type := none, has_attach := none }

/-- The record the resolver produces for `rowPlain`. -/
def recPlain : Record :=
  { chat_guid := [], chat_name := [], sender_or_chat_id := []
    role := "me".toList, from_me := some 1, ts := []
    text := "Hi!".toList, source := "text".toList }

/-- A sample row whose association guid is non-null but empty: Python
truthiness does not drop it. -/
def rowEmptyGuid : Row := { rowPlain with assoc_guid := some [] }

/-- A sample row with a non-empty association guid. -/
def rowTagged : Row := { rowPlain with assoc_guid := some "p:0/ABC".toList }

/-- A sample row whose only text candidate is a pure digit string. -/
def rowDigits : Row := { rowPlain with text_plain := some "123".toList }

/-- A sample row with a truthy but non-`1` origin flag. -/
def rowFromMe2 : Row := { rowPlain with from_me := some 2 }

/-- A blob whose secure decode succeeds but yields only a numeric
string, while the legacy decode would yield human text. -/
def blobSecureJunk : AttrBlob :=
  ⟨false, some (.str "123".toList), some (.str "hello".toList)⟩

/-- The same legacy payload behind a failing secure decode. -/
def blobSecureFails : AttrBlob :=
  ⟨false, none, some (.str "hello".toList)⟩

/-! ### Generic list lemmas -/

theorem any_false_of {α : Type} (p : α → Bool) (l : List α)
    (h : ∀ x ∈ l, p x = false) : l.any p = false := by
  induction l with
  | nil => rfl
  | cons a t ih =>
    simp only [List.any_cons, h a (List.mem_cons_self a t),
      ih (fun x hx => h x (List.mem_cons_of_mem a hx)), Bool.or_self]

theorem map_self_of {α : Type} (f : α → α) (l : List α)
    (h : ∀ x ∈ l, f x = x) : l.map f = l := by
  induction l with
  | nil => rfl
  | cons a t ih =>
    simp only [List.map_cons, h a (List.mem_cons_self a t),
      ih (fun x hx => h x (List.mem_cons_of_mem a hx))]

theorem rdropWhile_append_all {α : Type} (p : α → Bool) (a b : List α)
    (h : ∀ x ∈ b, p x = true) :
    List.rdropWhile p (a ++ b) = List.rdropWhile p a := by
  induction b using List.reverseRecOn with
  | nil => simp
  | append_singleton bs x ih =>
    rw [← List.append_assoc,
      List.rdropWhile_concat_pos p (a ++ bs) x (h x (by simp))]
    exact ih (fun y hy => h y (by simp [hy]))

theorem rdropWhile_append_of_ne {α : Type} (p : α → Bool) (a b : List α)
    (h : List.rdropWhile p b ≠ []) :
    List.rdropWhile p (a ++ b) = a ++ List.rdropWhile p b := by
  induction b using List.reverseRecOn with
  | nil => simp at h
  | append_singleton bs x ih =>
    by_cases hx : p x = true
    · rw [List.rdropWhile_concat_pos p bs x hx] at h
      rw [← List.append_assoc, List.rdropWhile_concat_pos p (a ++ bs) x hx,
        ih h, List.rdropWhile_concat_pos p bs x hx]
    · rw [← List.append_assoc, List.rdropWhile_concat_neg p (a ++ bs) x hx,
        List.rdropWhile_concat_neg p bs x hx, List.append_assoc]

theorem head_false_of_dropWhile_fix {α : Type} (p : α → Bool) (c : α) (t : List α)
    (h : List.dropWhile p (c :: t) = c :: t) : p c = false := by
  cases hc : p c with
  | false => rfl
  | true =>
    rw [List.dropWhile_cons, if_pos hc] at h
    have hlen : (List.dropWhile p t).length ≤ t.length :=
      (List.dropWhile_suffix p).length_le
    rw [h] at hlen
    simp at hlen

theorem last_false_of_rdropWhile_fix {α : Type} (p : α → Bool) (t : List α) (c : α)
    (h : List.rdropWhile p (t ++ [c]) = t ++ [c]) : p c = false := by
  cases hc : p c with
  | false => rfl
  | true =>
    rw [List.rdropWhile_concat_pos p t c hc] at h
    have hlen : (List.rdropWhile p t).length ≤ t.length :=
      (List.rdropWhile_prefix p t).length_le
    rw [h] at hlen
    simp at hlen

theorem dropWhile_rdropWhile_fix {α : Type} (p : α → Bool) (l : List α)
    (h : List.dropWhile p l = l) :
    List.dropWhile p (List.rdropWhile p l) = List.rdropWhile p l := by
  rcases hr : List.rdropWhile p l with _ | ⟨c, t⟩
  · rfl
  · have hpre : List.rdropWhile p l <+: l := List.rdropWhile_prefix p l
    rw [hr] at hpre
    obtain ⟨t2, ht2⟩ := hpre
    have hl : l = c :: (t ++ t2) := by rw [← ht2]; rfl
    have hc : p c = false := by
      apply head_false_of_dropWhile_fix p c (t ++ t2)
      rw [← hl]
      exact h
    rw [List.dropWhile_cons, if_neg (by simp [hc])]

/-! ### Lemmas about `strip` -/

theorem dropWhile_eq_of_strip_fix {s : List Char} (h : strip s = s) :
    List.dropWhile Char.isWhitespace s = s := by
  have hsuf : List.dropWhile Char.isWhitespace s <:+ s := List.dropWhile_suffix _
  apply hsuf.eq_of_length
  apply Nat.le_antisymm hsuf.length_le
  have h1 : (strip s).length ≤ (List.dropWhile Char.isWhitespace s).length :=
    (List.rdropWhile_prefix Char.isWhitespace (List.dropWhile Char.isWhitespace s)).length_le
  rw [h] at h1
  exact h1

theorem rdropWhile_eq_of_strip_fix {s : List Char} (h : strip s = s) :
    List.rdropWhile Char.isWhitespace s = s := by
  have hd := dropWhile_eq_of_strip_fix h
  calc List.rdropWhile Char.isWhitespace s
      = List.rdropWhile Char.isWhitespace (List.dropWhile Char.isWhitespace s) := by rw [hd]
    _ = s := h

theorem strip_strip (s : List Char) : strip (strip s) = strip s := by
  have h1 : List.dropWhile Char.isWhitespace (strip s) = strip s :=
    dropWhile_rdropWhile_fix Char.isWhitespace _
      (List.dropWhile_idempotent Char.isWhitespace s)
  show List.rdropWhile Char.isWhitespace (List.dropWhile Char.isWhitespace (strip s)) = strip s
  rw [h1]
  exact List.rdropWhile_idempotent Char.isWhitespace _

theorem strip_eq_nil_iff {s : List Char} :
    strip s = [] ↔ ∀ c ∈ s, Char.isWhitespace c = true := by
  constructor
  · intro h c hc
    have hsplit := List.takeWhile_append_dropWhile Char.isWhitespace s
    rw [← hsplit] at hc
    rcases List.mem_append.mp hc with hc1 | hc2
    · exact List.mem_takeWhile_imp hc1
    · exact List.rdropWhile_eq_nil_iff.mp h c hc2
  · intro h
    apply List.rdropWhile_eq_nil_iff.mpr
    intro x hx
    exact h x ((List.dropWhile_suffix Char.isWhitespace).sublist.mem hx)

theorem mem_of_mem_strip {c : Char} {s : List Char} (h : c ∈ strip s) : c ∈ s := by
  have h1 : c ∈ List.dropWhile Char.isWhitespace s :=
    (List.rdropWhile_prefix Char.isWhitespace _).sublist.mem h
  exact (List.dropWhile_suffix Char.isWhitespace).sublist.mem h1

theorem strip_any (p : Char → Bool)
    (hp : ∀ c, Char.isWhitespace c = true → p c = false) (s : List Char) :
    (strip s).any p = s.any p := by
  have h1 : s.any p = (List.dropWhile Char.isWhitespace s).any p := by
    conv_lhs => rw [← List.takeWhile_append_dropWhile Char.isWhitespace s]
    rw [List.any_append,
      any_false_of p _ (fun x hx => hp x (List.mem_takeWhile_imp hx)),
      Bool.false_or]
  have h2 : (strip s).any p = (List.dropWhile Char.isWhitespace s).any p := by
    show (List.rdropWhile Char.isWhitespace _).any p = _
    unfold List.rdropWhile
    rw [List.any_reverse]
    conv_rhs =>
      rw [← List.any_reverse,
        ← List.takeWhile_append_dropWhile Char.isWhitespace
          (List.dropWhile Char.isWhitespace s).reverse,
        List.any_append]
    rw [any_false_of p _ (fun x hx => hp x (List.mem_takeWhile_imp hx)),
      Bool.false_or]
  rw [h1, h2]

/-! ### Lemmas about `splitlines` and `joinLines` -/

theorem no_nl_splitlines {l : List Char} (h : '\n' ∉ l) (hne : l ≠ []) :
    splitlines l = [l] := by
  induction l with
  | nil => exact absurd rfl hne
  | cons c t ih =>
    have hc : ¬ c = '\n' := fun e => h (e ▸ List.mem_cons_self c t)
    by_cases ht : t = []
    · subst ht
      simp [splitlines, hc]
    · have ihh : splitlines t = [t] := ih (fun hm => h (List.mem_cons_of_mem c hm)) ht
      simp [splitlines, hc, ihh]

theorem splitlines_append_cons (l t : List Char) (h : '\n' ∉ l) :
    splitlines (l ++ '\n' :: t) = l :: splitlines t := by
  induction l with
  | nil => simp [splitlines]
  | cons c l' ih =>
    have hc : ¬ c = '\n' := fun e => h (e ▸ List.mem_cons_self c l')
    have ihh := ih (fun hm => h (List.mem_cons_of_mem c hm))
    simp [splitlines, hc, ihh]

theorem splitlines_no_nl (t : List Char) : ∀ l ∈ splitlines t, '\n' ∉ l := by
  induction t with
  | nil => intro l hl; simp [splitlines] at hl
  | cons c t' ih =>
    intro l hl
    by_cases hc : c = '\n'
    · subst hc
      simp only [splitlines, if_pos rfl] at hl
      rcases List.mem_cons.mp hl with rfl | hl2
      · simp
      · exact ih l hl2
    · simp only [splitlines, if_neg hc] at hl
      rcases hsp : splitlines t' with _ | ⟨l0, ls⟩
      · rw [hsp] at hl
        simp only [List.mem_singleton] at hl
        subst hl
        intro hmem
        rcases List.mem_singleton.mp hmem with rfl
        exact hc rfl
      · rw [hsp] at hl
        rcases List.mem_cons.mp hl with rfl | hl2
        · intro hmem
          rcases List.mem_cons.mp hmem with rfl | hm2
          · exact hc rfl
          · exact ih l0 (hsp ▸ List.mem_cons_self l0 ls) hm2
        · exact ih l (hsp ▸ List.mem_cons_of_mem l0 hl2)

theorem splitlines_chars (t : List Char) :
    ∀ l ∈ splitlines t, ∀ c ∈ l, c ∈ t := by
  induction t with
  | nil => intro l hl; simp [splitlines] at hl
  | cons a t' ih =>
    intro l hl c hc
    by_cases ha : a = '\n'
    · subst ha
      simp only [splitlines, if_pos rfl] at hl
      rcases List.mem_cons.mp hl with rfl | hl2
      · simp at hc
      · exact List.mem_cons_of_mem _ (ih l hl2 c hc)
    · simp only [splitlines, if_neg ha] at hl
      rcases hsp : splitlines t' with _ | ⟨l0, ls⟩
      · rw [hsp] at hl
        simp only [List.mem_singleton] at hl
        subst hl
        rcases List.mem_singleton.mp hc with rfl
        exact List.mem_cons_self c t'
      · rw [hsp] at hl
        rcases List.mem_cons.mp hl with rfl | hl2
        · rcases List.mem_cons.mp hc with rfl | hm2
          · exact List.mem_cons_self c t'
          · exact List.mem_cons_of_mem _
              (ih l0 (hsp ▸ List.mem_cons_self l0 ls) c hm2)
        · exact List.mem_cons_of_mem _ (ih l (hsp ▸ List.mem_cons_of_mem l0 hl2) c hc)

theorem joinLines_cons_of_ne (l : List Char) {ls : List (List Char)} (h : ls ≠ []) :
    joinLines (l :: ls) = l ++ '\n' :: joinLines ls := by
  cases ls with
  | nil => exact absurd rfl h
  | cons a b => rfl

theorem mem_joinLines {c : Char} : ∀ {ls : List (List Char)},
    c ∈ joinLines ls → c = '\n' ∨ ∃ l ∈ ls, c ∈ l := by
  intro ls
  induction ls with
  | nil => intro h; simp [joinLines] at h
  | cons l ls ih =>
    intro h
    by_cases hls : ls = []
    · subst hls
      exact Or.inr ⟨l, List.mem_singleton.mpr rfl, h⟩
    · rw [joinLines_cons_of_ne l hls] at h
      rcases List.mem_append.mp h with h1 | h2
      · exact Or.inr ⟨l, List.mem_cons_self l ls, h1⟩
      · rcases List.mem_cons.mp h2 with rfl | h3
        · exact Or.inl rfl
        · rcases ih h3 with h4 | ⟨l2, hl2, hc2⟩
          · exact Or.inl h4
          · exact Or.inr ⟨l2, List.mem_cons_of_mem l hl2, hc2⟩

theorem mem_joinLines_of_mem {c : Char} {l : List Char} {ls : List (List Char)}
    (hl : l ∈ ls) (hc : c ∈ l) : c ∈ joinLines ls := by
  induction ls with
  | nil => simp at hl
  | cons a b ih =>
    by_cases hb : b = []
    · subst hb
      rcases List.mem_singleton.mp hl with rfl
      exact hc
    · rw [joinLines_cons_of_ne a hb]
      rcases List.mem_cons.mp hl with rfl | h2
      · exact List.mem_append.mpr (Or.inl hc)
      · exact List.mem_append.mpr (Or.inr (List.mem_cons_of_mem _ (ih h2)))

theorem splitlines_joinLines (ls : List (List Char)) (h : ∀ l ∈ ls, '\n' ∉ l) :
    splitlines (joinLines ls) =
      if ls.getLast? = some [] then ls.dropLast else ls := by
  induction ls with
  | nil => simp [joinLines, splitlines]
  | cons l ls ih =>
    by_cases hls : ls = []
    · subst hls
      by_cases hl : l = []
      · subst hl
        simp [joinLines, splitlines]
      · show splitlines (joinLines [l]) = _
        rw [show joinLines [l] = l from rfl,
          no_nl_splitlines (h l (List.mem_singleton.mpr rfl)) hl]
        simp [hl]
    · rw [joinLines_cons_of_ne l hls,
        splitlines_append_cons l _ (h l (List.mem_cons_self l ls)),
        ih (fun x hx => h x (List.mem_cons_of_mem l hx))]
      have h1 : (l :: ls).getLast? = ls.getLast? := by
        cases ls with
        | nil => exact absurd rfl hls
        | cons a b => rw [List.getLast?_cons_cons]
      have h2 : (l :: ls).dropLast = l :: ls.dropLast := by
        cases ls with
        | nil => exact absurd rfl hls
        | cons a b => rfl
      rw [h1, h2]
      by_cases hg : ls.getLast? = some []
      · rw [if_pos hg, if_pos hg]
      · rw [if_neg hg, if_neg hg]

/-! ### Stripping a joined line list -/

theorem joinLines_all_nil {M : List (List Char)} (h : ∀ l ∈ M, l = []) :
    ∀ c ∈ joinLines M, c = '\n' := by
  induction M with
  | nil => intro c hc; simp [joinLines] at hc
  | cons l M ih =>
    intro c hc
    by_cases hM : M = []
    · subst hM
      rw [h l (List.mem_singleton.mpr rfl)] at hc
      simp [joinLines] at hc
    · rw [joinLines_cons_of_ne l hM, h l (List.mem_cons_self l M),
        List.nil_append] at hc
      rcases List.mem_cons.mp hc with rfl | h2
      · rfl
      · exact ih (fun x hx => h x (List.mem_cons_of_mem l hx)) c h2

theorem dropWhile_nil_join (L : List (List Char)) (hfix : ∀ l ∈ L, strip l = l) :
    List.dropWhile Char.isWhitespace (joinLines L) =
      joinLines (List.dropWhile (fun l => l.isEmpty) L) := by
  induction L with
  | nil => rfl
  | cons l L ih =>
    by_cases hl : l = []
    · subst hl
      by_cases hL : L = []
      · subst hL; rfl
      · rw [joinLines_cons_of_ne [] hL, List.nil_append, List.dropWhile_cons,
          if_pos (by decide), ih (fun x hx => hfix x (List.mem_cons_of_mem [] hx)),
          List.dropWhile_cons, if_pos (show ([] : List Char).isEmpty = true from rfl)]
    · obtain ⟨c, t, rfl⟩ := List.exists_cons_of_ne_nil hl
      have hw : Char.isWhitespace c = false :=
        head_false_of_dropWhile_fix _ c t
          (dropWhile_eq_of_strip_fix (hfix _ (List.mem_cons_self _ _)))
      have hR : List.dropWhile (fun l : List Char => l.isEmpty) ((c :: t) :: L) =
          (c :: t) :: L := by
        rw [List.dropWhile_cons, if_neg (by simp)]
      rw [hR]
      by_cases hL : L = []
      · subst hL
        show List.dropWhile _ (c :: t) = _
        rw [List.dropWhile_cons, if_neg (by simp [hw])]
        rfl
      · rw [joinLines_cons_of_ne _ hL]
        show List.dropWhile _ (c :: (t ++ '\n' :: joinLines L)) = _
        rw [List.dropWhile_cons, if_neg (by simp [hw])]
        rfl

theorem rdropWhile_nil_join (M : List (List Char)) (hfix : ∀ l ∈ M, strip l = l) :
    List.rdropWhile Char.isWhitespace (joinLines M) =
      joinLines (List.rdropWhile (fun l => l.isEmpty) M) := by
  induction M with
  | nil => rfl
  | cons l M ih =>
    have hlfix := hfix l (List.mem_cons_self l M)
    by_cases hM : M = []
    · subst hM
      show List.rdropWhile _ (joinLines [l]) = _
      rw [show joinLines [l] = l from rfl, rdropWhile_eq_of_strip_fix hlfix,
        List.rdropWhile_singleton]
      by_cases hl : l = []
      · subst hl
        rw [if_pos (show ([] : List Char).isEmpty = true from rfl)]
        rfl
      · rw [if_neg (by simp [List.isEmpty_iff, hl])]
        rfl
    · rw [joinLines_cons_of_ne l hM]
      by_cases hA : ∀ x ∈ M, x = ([] : List Char)
      · have hws : ∀ c ∈ ('\n' :: joinLines M), Char.isWhitespace c = true := by
          intro c hc
          rcases List.mem_cons.mp hc with rfl | h2
          · decide
          · rw [joinLines_all_nil hA c h2]; decide
        rw [show l ++ '\n' :: joinLines M = l ++ ('\n' :: joinLines M) from rfl,
          rdropWhile_append_all _ l _ hws, rdropWhile_eq_of_strip_fix hlfix]
        have hMall : ∀ x ∈ M, (fun y : List Char => y.isEmpty) x = true := by
          intro x hx
          rw [hA x hx]
          rfl
        rw [show (l :: M) = [l] ++ M from rfl,
          rdropWhile_append_all _ [l] M hMall, List.rdropWhile_singleton]
        by_cases hl : l = []
        · subst hl
          rw [if_pos (show ([] : List Char).isEmpty = true from rfl)]
          rfl
        · rw [if_neg (by simp [List.isEmpty_iff, hl])]
          rfl
      · push_neg at hA
        obtain ⟨x, hxM, hxne⟩ := hA
        have hchar : ∃ c ∈ joinLines M, Char.isWhitespace c = false := by
          obtain ⟨c, t, rfl⟩ := List.exists_cons_of_ne_nil hxne
          exact ⟨c, mem_joinLines_of_mem hxM (List.mem_cons_self c t),
            head_false_of_dropWhile_fix _ c t
              (dropWhile_eq_of_strip_fix (hfix _ (List.mem_cons_of_mem l hxM)))⟩
        have hrne : List.rdropWhile Char.isWhitespace (joinLines M) ≠ [] := by
          intro h0
          obtain ⟨c, hcm, hcw⟩ := hchar
          rw [List.rdropWhile_eq_nil_iff.mp h0 c hcm] at hcw
          simp at hcw
        have hrne2 : List.rdropWhile Char.isWhitespace ('\n' :: joinLines M) =
            '\n' :: List.rdropWhile Char.isWhitespace (joinLines M) := by
          rw [show ('\n' :: joinLines M) = ['\n'] ++ joinLines M from rfl,
            rdropWhile_append_of_ne _ _ _ hrne]
          rfl
        rw [show l ++ '\n' :: joinLines M = l ++ ('\n' :: joinLines M) from rfl,
          rdropWhile_append_of_ne _ _ _ (by rw [hrne2]; exact List.cons_ne_nil _ _),
          hrne2, ih (fun y hy => hfix y (List.mem_cons_of_mem l hy))]
        have hMne : List.rdropWhile (fun y : List Char => y.isEmpty) M ≠ [] := by
          intro h0
          have h1 := List.rdropWhile_eq_nil_iff.mp h0 x hxM
          exact hxne (List.isEmpty_iff.mp h1)
        rw [show (l :: M) = [l] ++ M from rfl,
          rdropWhile_append_of_ne _ _ _ hMne,
          show [l] ++ List.rdropWhile (fun y : List Char => y.isEmpty) M =
            l :: List.rdropWhile (fun y : List Char => y.isEmpty) M from rfl,
          joinLines_cons_of_ne l hMne]

theorem strip_joinLines (L : List (List Char)) (hfix : ∀ l ∈ L, strip l = l) :
    strip (joinLines L) =
      joinLines (List.rdropWhile (fun l => l.isEmpty)
        (List.dropWhile (fun l => l.isEmpty) L)) := by
  show List.rdropWhile Char.isWhitespace
      (List.dropWhile Char.isWhitespace (joinLines L)) = _
  rw [dropWhile_nil_join L hfix]
  exact rdropWhile_nil_join _
    (fun l hl => hfix l ((List.dropWhile_suffix _).sublist.mem hl))

theorem trimNil_getLast (L : List (List Char)) :
    (List.rdropWhile (fun l : List Char => l.isEmpty) L).getLast? ≠ some [] := by
  intro hg
  rcases hKnil : List.rdropWhile (fun l : List Char => l.isEmpty) L with _ | ⟨a, b⟩
  · rw [hKnil] at hg; simp at hg
  · have hne : List.rdropWhile (fun l : List Char => l.isEmpty) L ≠ [] := by
      rw [hKnil]; exact List.cons_ne_nil a b
    have hlast := List.rdropWhile_last_not (fun l : List Char => l.isEmpty) L hne
    rw [List.getLast?_eq_getLast _ hne] at hg
    injection hg with hg'
    rw [hg'] at hlast
    exact hlast rfl

/-! ### Normal form of `clean_text` results -/

theorem clean_text_nf (s : List Char) :
    clean_text s = [] ∨
      (strip (clean_text s) = clean_text s ∧
       lineNormalize (clean_text s) = clean_text s ∧
       '\r' ∉ clean_text s ∧
       ∀ l ∈ splitlines (clean_text s), strip l = l) := by
  by_cases h0 : s.isEmpty
  · left
    unfold clean_text
    rw [if_pos h0]
  by_cases h1 : marker <+: lineNormalize s
  · left
    unfold clean_text
    rw [if_neg h0, if_pos h1]
  by_cases h2 : containsSeq nsAttrName (lineNormalize s) = true ∧
      (lineNormalize s).head? = some '<' ∧ (lineNormalize s).getLast? = some '>'
  · left
    unfold clean_text
    rw [if_neg h0, if_neg h1, if_pos h2]
  right
  have hct : clean_text s = strip (lineNormalize s) := by
    unfold clean_text
    rw [if_neg h0, if_neg h1, if_neg h2]
  have hfixL : ∀ l ∈ (splitlines
      (s.map fun c => if c = '\r' then '\n' else c)).map strip, strip l = l := by
    intro l hl
    obtain ⟨l0, _, rfl⟩ := List.mem_map.mp hl
    exact strip_strip l0
  have hmemK : ∀ l ∈ List.rdropWhile (fun l : List Char => l.isEmpty)
      (List.dropWhile (fun l : List Char => l.isEmpty)
        ((splitlines (s.map fun c => if c = '\r' then '\n' else c)).map strip)),
      l ∈ (splitlines (s.map fun c => if c = '\r' then '\n' else c)).map strip := by
    intro l hl
    exact (List.dropWhile_suffix _).sublist.mem
      ((List.rdropWhile_prefix _ _).sublist.mem hl)
  have hnlK : ∀ l ∈ List.rdropWhile (fun l : List Char => l.isEmpty)
      (List.dropWhile (fun l : List Char => l.isEmpty)
        ((splitlines (s.map fun c => if c = '\r' then '\n' else c)).map strip)),
      '\n' ∉ l := by
    intro l hl
    obtain ⟨l0, hl0, rfl⟩ := List.mem_map.mp (hmemK l hl)
    intro hmem
    exact splitlines_no_nl _ l0 hl0 (mem_of_mem_strip hmem)
  have hr : clean_text s = joinLines (List.rdropWhile (fun l : List Char => l.isEmpty)
      (List.dropWhile (fun l : List Char => l.isEmpty)
        ((splitlines (s.map fun c => if c = '\r' then '\n' else c)).map strip))) := by
    rw [hct]
    exact strip_joinLines _ hfixL
  have hsplitK : splitlines (clean_text s) =
      List.rdropWhile (fun l : List Char => l.isEmpty)
        (List.dropWhile (fun l : List Char => l.isEmpty)
          ((splitlines (s.map fun c => if c = '\r' then '\n' else c)).map strip)) := by
    rw [hr, splitlines_joinLines _ hnlK, if_neg (trimNil_getLast _)]
  have hnoR : '\r' ∉ clean_text s := by
    rw [hr]
    intro hmem
    rcases mem_joinLines hmem with h | ⟨l, hl, hcl⟩
    · exact absurd h (by decide)
    · obtain ⟨l0, hl0, rfl⟩ := List.mem_map.mp (hmemK l hl)
      have h1 : '\r' ∈ (s.map fun c => if c = '\r' then '\n' else c) :=
        splitlines_chars _ l0 hl0 _ (mem_of_mem_strip hcl)
      obtain ⟨c, _, hfc⟩ := List.mem_map.mp h1
      by_cases hcr : c = '\r'
      · rw [if_pos hcr] at hfc
        exact absurd hfc (by decide)
      · rw [if_neg hcr] at hfc
        exact hcr hfc
  have hlines : ∀ l ∈ splitlines (clean_text s), strip l = l := by
    intro l hl
    rw [hsplitK] at hl
    exact hfixL l (hmemK l hl)
  refine ⟨by rw [hct]; exact strip_strip _, ?_, hnoR, hlines⟩
  unfold lineNormalize
  have hmapid : (clean_text s).map (fun c => if c = '\r' then '\n' else c) =
      clean_text s :=
    map_self_of _ _ (fun c hc => by
      rw [if_neg]
      intro e
      exact hnoR (e ▸ hc))
  rw [hmapid, hsplitK, map_self_of _ _ (fun l hl => hfixL l (hmemK l hl))]
  exact hr.symm

/-- Fixed-point property: `clean_text` fixes any string already in normal form on which
neither artifact guard fires. -/
theorem clean_text_of_fix {r : List Char} (hstr : strip r = r)
    (hln : lineNormalize r = r)
    (h1 : ¬ marker <+: r)
    (h2 : ¬ (containsSeq nsAttrName r = true ∧
      r.head? = some '<' ∧ r.getLast? = some '>')) :
    clean_text r = r := by
  by_cases h0 : r.isEmpty
  · unfold clean_text
    rw [if_pos h0]
    exact (List.isEmpty_iff.mp h0).symm
  · unfold clean_text
    rw [hln, if_neg h0, if_neg h1, if_neg h2, hstr]

/-! ### The marker guard -/

theorem splitlines_head_append (p : List Char) (t : List Char)
    (hnl : '\n' ∉ p) (hne : p ≠ []) :
    ∃ u ls, splitlines (p ++ t) = (p ++ u) :: ls := by
  induction p with
  | nil => exact absurd rfl hne
  | cons c p' ih =>
    have hc : ¬ c = '\n' := fun e => hnl (e ▸ List.mem_cons_self c p')
    by_cases hp' : p' = []
    · subst hp'
      rcases hsp : splitlines t with _ | ⟨l0, ls0⟩
      · exact ⟨[], [], by simp [splitlines, hc, hsp]⟩
      · exact ⟨l0, ls0, by simp [splitlines, hc, hsp]⟩
    · obtain ⟨u, ls, hsp⟩ := ih (fun hm => hnl (List.mem_cons_of_mem c hm)) hp'
      exact ⟨u, ls, by simp [splitlines, hc, hsp]⟩

theorem marker_pre_strip (u : List Char) : marker <+: strip (marker ++ u) := by
  have hm : marker = '@' :: "NSAttributedString".toList := by decide
  have hd : List.dropWhile Char.isWhitespace (marker ++ u) = marker ++ u := by
    rw [hm, List.cons_append, List.dropWhile_cons, if_neg (by decide)]
  show marker <+: List.rdropWhile Char.isWhitespace
    (List.dropWhile Char.isWhitespace (marker ++ u))
  rw [hd]
  by_cases hu : List.rdropWhile Char.isWhitespace u = []
  · rw [rdropWhile_append_all _ marker u (List.rdropWhile_eq_nil_iff.mp hu),
      show List.rdropWhile Char.isWhitespace marker = marker from by decide]
  · rw [rdropWhile_append_of_ne _ marker u hu]
    exact List.prefix_append marker _

theorem joinLines_head_pre (l : List Char) (ls : List (List Char)) :
    l <+: joinLines (l :: ls) := by
  cases ls with
  | nil => exact List.prefix_rfl
  | cons a b =>
    rw [joinLines_cons_of_ne l (List.cons_ne_nil a b)]
    exact List.prefix_append l _

theorem marker_pre_lineNormalize (rest : List Char) :
    marker <+: lineNormalize (marker ++ rest) := by
  unfold lineNormalize
  rw [List.map_append,
    show marker.map (fun c => if c = '\r' then '\n' else c) = marker from by decide]
  obtain ⟨u, ls, hsp⟩ := splitlines_head_append marker
    (rest.map fun c => if c = '\r' then '\n' else c) (by decide) (by decide)
  rw [hsp, List.map_cons]
  exact (marker_pre_strip u).trans (joinLines_head_pre _ _)

theorem clean_text_marker {s : List Char} (h : marker <+: s) : clean_text s = [] := by
  obtain ⟨rest, rfl⟩ := h
  have hm : marker = '@' :: "NSAttributedString".toList := by decide
  have h0 : (marker ++ rest).isEmpty = false := by
    rw [hm, List.cons_append]
    rfl
  unfold clean_text
  rw [if_neg (by simp [h0]), if_pos (marker_pre_lineNormalize rest)]

/-! ### Character class facts -/

theorem ws_cases {c : Char} (h : c.isWhitespace = true) :
    c = ' ' ∨ c = '\t' ∨ c = '\r' ∨ c = '\n' := by
  simp only [Char.isWhitespace, Bool.or_eq_true, decide_eq_true_eq] at h
  tauto

theorem ws_not_alpha {c : Char} (h : c.isWhitespace = true) : c.isAlpha = false := by
  rcases ws_cases h with rfl | rfl | rfl | rfl <;> decide

theorem ws_not_emoji {c : Char} (h : c.isWhitespace = true) : isEmojiChar c = false := by
  rcases ws_cases h with rfl | rfl | rfl | rfl <;> decide

/-! ### Claim theorems: classifier and normalizer -/

/-- C7: the classifier `is_humanish` agrees with the spec's contract,
clause for clause: false on empty or all-whitespace input; false on
input that is solely decimal digits after trimming; true on input with
at least one alphabetic character; otherwise true exactly when some
character lies in U+1F300–U+1FAFF or U+2600–U+27BF; false on everything
else. -/
theorem is_humanish_spec_eq (s : List Char) : is_humanish s = is_humanish_spec s := by
  unfold is_humanish is_humanish_spec
  by_cases hws : ∀ c ∈ s, Char.isWhitespace c = true
  · have hall : s.all Char.isWhitespace = true := List.all_eq_true.mpr hws
    have hnil : (strip s).isEmpty = true :=
      List.isEmpty_iff.mpr (strip_eq_nil_iff.mpr hws)
    rw [if_pos hall]
    by_cases hse : s.isEmpty = true
    · rw [if_pos hse]
    · rw [if_neg hse, if_pos hnil]
  · have hall : ¬ s.all Char.isWhitespace = true :=
      fun hc => hws (List.all_eq_true.mp hc)
    have hsne : ¬ s.isEmpty = true := by
      intro he
      exact hall (by rw [List.isEmpty_iff.mp he]; rfl)
    have hstripne : ¬ (strip s).isEmpty = true := by
      intro he
      exact hws (strip_eq_nil_iff.mp (List.isEmpty_iff.mp he))
    rw [if_neg hall, if_neg hsne, if_neg hstripne]
    by_cases hdig : (strip s).all Char.isDigit = true
    · rw [if_pos hdig, if_pos hdig]
    · rw [if_neg hdig, if_neg hdig,
        strip_any Char.isAlpha (fun c hc => ws_not_alpha hc) s,
        strip_any isEmojiChar (fun c hc => ws_not_emoji hc) s]

/-- C8 counterexample: `clean_text` is not idempotent. On
`"\n@NSAttributedStringX"` the first pass strips the leading newline,
exposing the `@NSAttributedString` marker, so the second pass erases the
string. -/
theorem clean_text_not_idem :
    clean_text (clean_text ('\n' :: marker ++ ['X'])) ≠
      clean_text ('\n' :: marker ++ ['X']) := by decide

/-- C8 (amended): `clean_text` maps every string beginning with the
literal marker `@NSAttributedString` to the empty string; and it is
idempotent on every input whose cleaned result does not itself begin
with the marker and is not an angle-bracket `NSAttributedString` dump —
the only situations in which idempotence can fail, as the counterexample
shows. -/
theorem clean_text_idem_amended (s : List Char) :
    (marker <+: s → clean_text s = []) ∧
    (¬ marker <+: clean_text s →
      ¬ (containsSeq nsAttrName (clean_text s) = true ∧
          (clean_text s).head? = some '<' ∧ (clean_text s).getLast? = some '>') →
      clean_text (clean_text s) = clean_text s) := by
  refine ⟨fun h => clean_text_marker h, fun h1 h2 => ?_⟩
  rcases clean_text_nf s with h | ⟨hstr, hln, _, _⟩
  · rw [h]
    decide
  · exact clean_text_of_fix hstr hln h1 h2

/-- C8 witness: the amended idempotence at `"a\nb "` and the marker
clause at `"@NSAttributedString x"`. -/
theorem clean_text_idem_amended_witness :
    clean_text (clean_text "a\nb ".toList) = clean_text "a\nb ".toList ∧
    clean_text (marker ++ " x".toList) = [] :=
  ⟨(clean_text_idem_amended "a\nb ".toList).2 (by decide) (by decide),
   (clean_text_idem_amended (marker ++ " x".toList)).1 (by decide)⟩

/-- C10: every `clean_text` result contains no carriage return, has
every line free of leading and trailing whitespace, and carries no
surrounding whitespace as a whole. -/
theorem clean_text_normal_form (s : List Char) :
    '\r' ∉ clean_text s ∧
    (∀ l ∈ splitlines (clean_text s), strip l = l) ∧
    strip (clean_text s) = clean_text s := by
  rcases clean_text_nf s with h | ⟨hstr, _, hnoR, hlines⟩
  · rw [h]
    exact ⟨by simp, by intro l hl; simp [splitlines] at hl, rfl⟩
  · exact ⟨hnoR, hlines, hstr⟩

/-- C10 witness: the normal form at `" a\r b "`, whose cleaned result
has lines `"a"` and `"b"`. -/
theorem clean_text_normal_form_witness :
    '\r' ∉ clean_text " a\r b ".toList ∧
    strip "a".toList = "a".toList ∧
    strip (clean_text " a\r b ".toList) = clean_text " a\r b ".toList :=
  ⟨(clean_text_normal_form " a\r b ".toList).1,
   (clean_text_normal_form " a\r b ".toList).2.1 "a".toList (by decide),
   (clean_text_normal_form " a\r b ".toList).2.2⟩

/-! ### Claim theorems: rich-object extractor -/

mutual
theorem walk_foldl (o : NSObj) (best : List Char) :
    walk o best = ((dfsNodes o).map first_string_from).foldl keepLonger best := by
  cases o with
  | str s =>
    simp [walk, dfsNodes, keepLonger]
  | attr s =>
    simp [walk, dfsNodes, keepLonger]
  | other =>
    simp [walk, dfsNodes, keepLonger]
  | dict vs =>
    rw [walk, dfsNodes, List.map_cons, List.foldl_cons]
    exact walkList_foldl vs (keepLonger best (first_string_from (NSObj.dict vs)))
  | arr vs =>
    rw [walk, dfsNodes, List.map_cons, List.foldl_cons]
    exact walkList_foldl vs (keepLonger best (first_string_from (NSObj.arr vs)))

theorem walkList_foldl (vs : List NSObj) (best : List Char) :
    walkList vs best =
      ((dfsNodesList vs).map first_string_from).foldl keepLonger best := by
  cases vs with
  | nil =>
    simp [walkList, dfsNodesList]
  | cons v rest =>
    rw [walkList, dfsNodesList, List.map_append, List.foldl_append,
      ← walk_foldl v best, walkList_foldl rest (walk v best)]
end

/-- C3: `best_string_from` computes, over all nodes of the depth-first
traversal of the graph, the longest first-string candidate passing the
classifier, with ties keeping the first candidate found, and returns the
winner passed through `clean_text`; in particular the graph with sibling
strings "12" and "Hello there" yields "Hello there", and of two
human-readable strings of different lengths the longer is returned. -/
theorem best_string_from_longest :
    (∀ o : NSObj, best_string_from o =
      clean_text (pickBest ((dfsNodes o).map first_string_from))) ∧
    best_string_from (.arr [.str "12".toList, .str "Hello there".toList]) =
      "Hello there".toList ∧
    best_string_from (.arr [.str "hi".toList, .str "hello".toList]) =
      "hello".toList := by
  refine ⟨fun o => ?_, by decide, by decide⟩
  unfold best_string_from pickBest
  rw [walk_foldl o []]

/-! ### Claim theorems: decoders -/

theorem classified_return (s : List Char) :
    (if is_humanish s = true then s else []) = [] ∨
    is_humanish (if is_humanish s = true then s else []) = true := by
  by_cases h : is_humanish s = true
  · rw [if_pos h]
    exact Or.inr h
  · rw [if_neg h]
    exact Or.inl rfl

theorem decode_attr_classified (b : AttrBlob) :
    decode_attr b = [] ∨ is_humanish (decode_attr b) = true := by
  unfold decode_attr
  cases hE : b.isEmpty
  · cases hS : b.secureObj with
    | none =>
      cases hL : b.legacyObj with
      | none => simp [hE, hS, hL]
      | some o => simpa [hE, hS, hL] using classified_return (best_string_from o)
    | some o => simpa [hE, hS] using classified_return (best_string_from o)
  · simp [hE]

theorem decode_summary_classified (c : SummaryBlob) :
    decode_summary c = [] ∨ is_humanish (decode_summary c) = true := by
  unfold decode_summary
  cases hE : c.isEmpty
  · cases hP : c.parsed with
    | none => simp [hE, hP]
    | some x => simpa [hE, hP] using classified_return (pull x)
  · simp [hE]

/-- C9: for every input blob (including null/empty ones), `decode_attr`
and `decode_summary` each return either the empty string or a string
that passes `is_humanish` — neither decoder ever returns a non-empty
string failing the classifier. -/
theorem decoders_classified (b : AttrBlob) (c : SummaryBlob) :
    (decode_attr b = [] ∨ is_humanish (decode_attr b) = true) ∧
    (decode_summary c = [] ∨ is_humanish (decode_summary c) = true) :=
  ⟨decode_attr_classified b, decode_summary_classified c⟩

/-- C1 counterexample: when the secure unarchive succeeds but yields
only the non-human string "123", `decode_attr` returns empty without
attempting the legacy decode — although the same legacy payload yields
"hello" when the secure decode fails outright. -/
theorem decode_attr_no_fallback :
    decode_attr blobSecureJunk = [] ∧
    decode_attr blobSecureFails = "hello".toList :=
  ⟨by decide, by decide⟩

/-- C1 (amended): for every non-empty blob, the legacy permissive
attempt is made exactly when the secure attempt fails to deserialize;
when the secure attempt deserializes to an object, its classified
extraction result is returned directly — empty when the extracted string
fails the classifier — without attempting the legacy decode; a non-empty
result is returned from either attempt only if it passes the
classifier. -/
theorem decode_attr_amended (b : AttrBlob) (h : b.isEmpty = false) :
    (∀ o, b.secureObj = some o →
      decode_attr b =
        (if is_humanish (best_string_from o) = true then best_string_from o else [])) ∧
    (b.secureObj = none →
      decode_attr b =
        (match b.legacyObj with
         | some o =>
             if is_humanish (best_string_from o) = true then best_string_from o else []
         | none => [])) := by
  constructor
  · intro o ho
    unfold decode_attr
    rw [if_neg (by simp [h]), ho]
  · intro ho
    unfold decode_attr
    rw [if_neg (by simp [h]), ho]

/-- C1 witness: the amended behaviour at the two sample blobs. -/
theorem decode_attr_amended_witness :
    decode_attr blobSecureJunk =
      (if is_humanish (best_string_from (NSObj.str "123".toList)) = true
        then best_string_from (NSObj.str "123".toList) else []) ∧
    decode_attr blobSecureFails =
      (match blobSecureFails.legacyObj with
       | some o =>
           if is_humanish (best_string_from o) = true then best_string_from o else []
       | none => []) :=
  ⟨(decode_attr_amended blobSecureJunk rfl).1 (NSObj.str "123".toList) rfl,
   (decode_attr_amended blobSecureFails rfl).2 rfl⟩

/-! ### Claim theorems: resolver -/

theorem final_filter (r : Row) (q : List Char × List Char) :
    (if (!is_humanish q.1) = true then none
     else some
       { chat_guid := orEmpty r.chat_guid
         chat_name := orEmpty r.chat_name
         sender_or_chat_id := orEmpty r.sender_or_chat_id
         role := if r.from_me = some 1 then "me".toList else "other".toList
         from_me := r.from_me
         ts := match ts_unix r.date with
           | some v => formatTS v
           | none => []
         text := q.1
         source := q.2 } : Option Record) = none ∨
    ∃ txt src, txt = q.1 ∧ src = q.2 ∧ is_humanish txt = true ∧
      (if (!is_humanish q.1) = true then none
       else some
         { chat_guid := orEmpty r.chat_guid
           chat_name := orEmpty r.chat_name
           sender_or_chat_id := orEmpty r.sender_or_chat_id
           role := if r.from_me = some 1 then "me".toList else "other".toList
           from_me := r.from_me
           ts := match ts_unix r.date with
             | some v => formatTS v
             | none => []
           text := q.1
           source := q.2 } : Option Record) = some
         { chat_guid := orEmpty r.chat_guid
           chat_name := orEmpty r.chat_name
           sender_or_chat_id := orEmpty r.sender_or_chat_id
           role := if r.from_me = some 1 then "me".toList else "other".toList
           from_me := r.from_me
           ts := match ts_unix r.date with
             | some v => formatTS v
             | none => []
           text := txt
           source := src } := by
  by_cases hq : is_humanish q.1 = true
  · right
    exact ⟨q.1, q.2, rfl, rfl, hq, by rw [if_neg (by simp [hq])]⟩
  · left
    rw [if_pos (by simp [hq])]

theorem resolve_cases (r : Row) :
    resolve r = none ∨
    ∃ txt src, is_humanish txt = true ∧ resolve r = some
      { chat_guid := orEmpty r.chat_guid
        chat_name := orEmpty r.chat_name
        sender_or_chat_id := orEmpty r.sender_or_chat_id
        role := if r.from_me = some 1 then "me".toList else "other".toList
        from_me := r.from_me
        ts := match ts_unix r.date with
          | some v => formatTS v
          | none => []
        text := txt
        source := src } := by
  unfold resolve
  by_cases hT : truthyStr r.assoc_guid = true
  · rw [if_pos hT]
    exact Or.inl rfl
  · rw [if_neg hT]
    rcases final_filter r
      (let txt0 := clean_text (orEmpty r.text_plain)
       let src0 : List Char := if is_humanish txt0 = true then "text".toList else []
       let p1 : List Char × List Char :=
         if src0.isEmpty = true then
           let t2 := decode_attr r.attr_blob
           if (!t2.isEmpty) = true then (t2, "attributedBody".toList) else (txt0, src0)
         else (txt0, src0)
       if p1.2.isEmpty = true then
         let t3 := decode_summary r.summary_blob
         if (!t3.isEmpty) = true then (t3, "message_summary_info".toList) else p1
       else p1) with h | ⟨txt, src, _, _, hh, heq⟩
    · exact Or.inl h
    · exact Or.inr ⟨txt, src, hh, heq⟩

theorem resolve_some_fields (r : Row) (rec : Record) (h : resolve r = some rec) :
    is_humanish rec.text = true ∧
    rec.role = (if r.from_me = some 1 then "me".toList else "other".toList) ∧
    rec.ts = (match ts_unix r.date with
      | some v => formatTS v
      | none => []) := by
  rcases resolve_cases r with h0 | ⟨txt, src, hh, heq⟩
  · rw [h0] at h
    exact absurd h (by simp)
  · rw [heq] at h
    have h2 := Option.some.inj h
    rw [← h2]
    exact ⟨hh, rfl, rfl⟩

/-- C4 counterexample: a row whose association guid is non-null but
empty is NOT dropped — Python truthiness treats the empty string like a
missing guid, so a record is still produced. -/
theorem assoc_empty_not_dropped :
    rowEmptyGuid.assoc_guid = some [] ∧ (resolve rowEmptyGuid).isSome = true :=
  ⟨rfl, by decide⟩

/-- C4 (amended): every row whose association guid is present and
non-empty (truthy) is dropped unconditionally by the resolver,
regardless of the values of all other fields. -/
theorem assoc_truthy_dropped (r : Row) (g : List Char)
    (hg : r.assoc_guid = some g) (hne : g ≠ []) : resolve r = none := by
  unfold resolve
  rw [if_pos (show truthyStr r.assoc_guid = true by
    rw [hg]
    simp [truthyStr, List.isEmpty_iff, hne])]

/-- C4 witness: a reaction row with guid `"p:0/ABC"` is dropped. -/
theorem assoc_truthy_dropped_witness : resolve rowTagged = none :=
  assoc_truthy_dropped rowTagged "p:0/ABC".toList rfl (by decide)

/-- C5 counterexample: a row with the truthy origin flag `2` is emitted
with role `other`, not `me` — the code compares the flag with `1` rather
than testing truthiness. -/
theorem role_truthy_not_me :
    rowFromMe2.from_me = some 2 ∧
    Option.map Record.role (resolve rowFromMe2) = some "other".toList :=
  ⟨rfl, by decide⟩

/-- C5 (amended): every emitted record has role `me` exactly when the
row's origin flag equals `1`, and `other` otherwise. -/
theorem role_eq_one (r : Row) (rec : Record) (h : resolve r = some rec) :
    rec.role = if r.from_me = some 1 then "me".toList else "other".toList :=
  (resolve_some_fields r rec h).2.1

/-- C5 witness: the amended role rule at the sample plain-text row. -/
theorem role_eq_one_witness :
    recPlain.role = if rowPlain.from_me = some 1 then "me".toList else "other".toList :=
  role_eq_one rowPlain recPlain (by decide)

/-- C2: every record emitted by the resolver carries non-empty text that
passes `is_humanish`; and a row whose three candidates (normalized plain
text, rich-text decode, property-list decode) all fail the classifier
produces no record. -/
theorem resolver_final_filter :
    (∀ (r : Row) (rec : Record), resolve r = some rec →
      rec.text ≠ [] ∧ is_humanish rec.text = true) ∧
    (∀ r : Row,
      is_humanish (clean_text (orEmpty r.text_plain)) = false →
      is_humanish (decode_attr r.attr_blob) = false →
      is_humanish (decode_summary r.summary_blob) = false →
      resolve r = none) := by
  constructor
  · intro r rec h
    have hh := (resolve_some_fields r rec h).1
    refine ⟨fun he => ?_, hh⟩
    rw [he] at hh
    exact absurd hh (by decide)
  · intro r h1 h2 h3
    have hA : decode_attr r.attr_blob = [] := by
      rcases decode_attr_classified r.attr_blob with h | h
      · exact h
      · rw [h2] at h
        exact absurd h (by simp)
    have hC : decode_summary r.summary_blob = [] := by
      rcases decode_summary_classified r.summary_blob with h | h
      · exact h
      · rw [h3] at h
        exact absurd h (by simp)
    unfold resolve
    by_cases hT : truthyStr r.assoc_guid = true
    · rw [if_pos hT]
    · rw [if_neg hT]
      simp [h1, hA, hC]

/-- C2 witness: the emitted-record half at `rowPlain`, and the all-fail
half at `rowDigits`, whose only candidate is the digit string "123". -/
theorem resolver_final_filter_witness :
    (recPlain.text ≠ [] ∧ is_humanish recPlain.text = true) ∧
    resolve rowDigits = none :=
  ⟨resolver_final_filter.1 rowPlain recPlain (by decide),
   resolver_final_filter.2 rowDigits (by decide) (by decide) (by decide)⟩

/-- C6: the timestamp rule — a raw value above 10^12 is nanoseconds
since the store epoch (divide by 10^9, add the fixed offset 978307200
seconds), a positive value is seconds since the store epoch (add the
same offset), anything else produces no timestamp (and the record's
timestamp field is then the empty string); raw values 1700000000 and
1700000000000000000 map to the same instant. -/
theorem ts_unix_spec :
    (∀ v : Int,
      (v > 1000000000000 → ts_unix (some v) = some (v / 1000000000 + 978307200)) ∧
      (¬ v > 1000000000000 → v > 0 → ts_unix (some v) = some (v + 978307200)) ∧
      (¬ v > 0 → ts_unix (some v) = none)) ∧
    ts_unix (some 1700000000) = ts_unix (some 1700000000000000000) ∧
    (∀ (r : Row) (rec : Record), resolve r = some rec →
      ts_unix r.date = none → rec.ts = []) := by
  refine ⟨fun v => ⟨?_, ?_, ?_⟩, by decide, ?_⟩
  · intro h
    simp only [ts_unix]
    rw [if_pos h]
  · intro h1 h2
    simp only [ts_unix]
    rw [if_neg h1, if_pos h2]
  · intro h
    simp only [ts_unix]
    rw [if_neg (by omega : ¬ v > 1000000000000), if_neg h]
  · intro r rec h hts
    have h3 := (resolve_some_fields r rec h).2.2
    rw [hts] at h3
    exact h3

/-- C6 witness: the three branches at 2·10^12, 5 and −3, and the empty
timestamp field at the sample row (whose raw date is null). -/
theorem ts_unix_spec_witness :
    ts_unix (some 2000000000000) = some (2000000000000 / 1000000000 + 978307200) ∧
    ts_unix (some 5) = some (5 + 978307200) ∧
    ts_unix (some (-3)) = none ∧
    recPlain.ts = [] :=
  ⟨(ts_unix_spec.1 2000000000000).1 (by decide),
   (ts_unix_spec.1 5).2.1 (by decide) (by decide),
   (ts_unix_spec.1 (-3)).2.2 (by decide),
   ts_unix_spec.2.2 rowPlain recPlain (by decide) (by decide)⟩

end IMsg
